import Mathlib

/-!
Verification of the parallel image-convolution program (`convolveParallel.c`).

The program convolves a `rows × columns` RGBA image (4 bytes per pixel,
row-major) with a named 3×3 integer kernel, splitting the flat output byte
buffer across `number_of_threads` workers.  Each worker translates its byte
offset into a starting pixel coordinate and walks pixels row by row while the
byte address of the current pixel's first channel stays at or below its upper
section offset.

The definitions below are a shallow embedding of the C source: buffers are
functions from byte offsets to integer byte values, machine `int` arithmetic
is exact `Int`/`Nat` arithmetic (the program's offsets and accumulators stay
far below 2^31 for the image sizes considered), the store into an
`unsigned char` cell is modelled by reduction mod 256, and the worker loops
are bounded iteration with an explicit fuel argument that dominates the number
of row iterations (`rows`), so the embedded loops agree with the C loops.
-/

/-- `#define BYTES_PER_PIXEL 4` -/
abbrev BYTES_PER_PIXEL : Nat := 4

/-- `#define ALPHA_OFFSET 3` -/
abbrev ALPHA_OFFSET : Nat := 3

/-- `#define KERNEL_DIM 3` -/
abbrev KERNEL_DIM : Nat := 3

/-- `#define IMG_BYTE(columns, r, c, b) ((columns * BYTES_PER_PIXEL * r) + (BYTES_PER_PIXEL * c) + b)` -/
def IMG_BYTE (columns r c b : Nat) : Nat :=
  columns * BYTES_PER_PIXEL * r + BYTES_PER_PIXEL * c + b

/-- `#define CLAMP(val, min, max) (val < min ? min : val > max ? max : val)` -/
def CLAMP (val mn mx : Int) : Int :=
  if val < mn then mn else if val > mx then mx else val

/-- `typedef int kernel_t[KERNEL_DIM][KERNEL_DIM];` -/
abbrev Kernel := Fin KERNEL_DIM → Fin KERNEL_DIM → Int

/-- `normalize_kernel`: sum the nine weights with the two nested loops, then
replace a zero sum by 1. -/
def normalize_kernel (kernel : Kernel) : Int :=
  let norm : Int := (List.finRange KERNEL_DIM).foldl (fun acc r =>
    (List.finRange KERNEL_DIM).foldl (fun acc2 c => acc2 + kernel r c) acc) 0
  if norm = 0 then 1 else norm

/-- The byte offset read for tap `(kr, kc)` of the kernel when convolving
pixel `(r, c)`, channel `b`: the C code computes `R = r + (kr - half_dim)`,
`C = c + (kc - half_dim)` as `int`s and indexes
`input->pixels[IMG_BYTE(columns, CLAMP(R, 0, rows - 1), CLAMP(C, 0, columns - 1), b)]`. -/
def readOffset (rows columns r c : Nat) (kr kc : Fin KERNEL_DIM) (b : Nat) : Nat :=
  let half_dim : Int := (KERNEL_DIM : Int) / 2
  let R : Int := (r : Int) + ((kr : Int) - half_dim)
  let C : Int := (c : Int) + ((kc : Int) - half_dim)
  IMG_BYTE columns (CLAMP R 0 ((rows : Int) - 1)).toNat (CLAMP C 0 ((columns : Int) - 1)).toNat b

/-- The `int value` computed by `convolve` for channel `b` of pixel `(r, c)`:
the alpha channel is read back from the input, the other channels accumulate
the nine weighted taps, divide by the kernel norm (C `int` division truncates
toward zero, i.e. `Int.tdiv`) and clamp into `[0, 255]`. -/
def convolveValue (input : Nat → Int) (rows columns : Nat) (kernel : Kernel)
    (r c b : Nat) : Int :=
  let kernel_norm := normalize_kernel kernel
  if b = ALPHA_OFFSET then
    input (IMG_BYTE columns r c b)
  else
    let value : Int := (List.finRange KERNEL_DIM).foldl (fun acc kr =>
      (List.finRange KERNEL_DIM).foldl (fun acc2 kc =>
        acc2 + kernel kr kc * input (readOffset rows columns r c kr kc b)) acc) 0
    CLAMP (Int.tdiv value kernel_norm) 0 255

/-- Point update of a byte buffer. -/
def update (buf : Nat → Int) (addr : Nat) (v : Int) : Nat → Int :=
  fun x => if x = addr then v else buf x

/-- The innermost output statement of `convolve` for one pixel: the loop over
`b = 0, 1, 2, 3` stores each computed `int value` into the `unsigned char`
cell `output->pixels[IMG_BYTE(columns, r, c, b)]` (conversion to
`unsigned char` reduces mod 256). -/
def writePixel (input : Nat → Int) (rows columns : Nat) (kernel : Kernel)
    (r c : Nat) (out : Nat → Int) : Nat → Int :=
  [0, 1, 2, 3].foldl (fun acc b =>
    update acc (IMG_BYTE columns r c b)
      (Int.emod (convolveValue input rows columns kernel r c b) 256)) out

/-- The inner `for (c = ...; IMG_BYTE(columns, r, c, 0) <= next_section_offset
&& c < columns; c++)` loop of `convolve`, listing the pixels it visits.  The
fuel argument bounds the iteration count; callers pass `columns`, which
dominates the possible number of steps, so the fuel never cuts the loop
short. -/
def innerFrom (columns next r : Nat) : Nat → Nat → List (Nat × Nat)
  | 0, _ => []
  | fuel + 1, c =>
    if IMG_BYTE columns r c 0 ≤ next ∧ c < columns then
      (r, c) :: innerFrom columns next r fuel (c + 1)
    else []

/-- The outer `for (r = r_start; IMG_BYTE(columns, r, 0, 0) <=
next_section_offset && r < rows; r++)` loop of `convolve`.  `c_start` is the
mutable variable of the C code: it is reset to 0 inside the inner loop body,
hence only when the inner loop actually visited a pixel in the current row.
Fuel (callers pass `rows`) dominates the possible number of row steps. -/
def outerFrom (rows columns next : Nat) : Nat → Nat → Nat → List (Nat × Nat)
  | 0, _, _ => []
  | fuel + 1, r, c_start =>
    if IMG_BYTE columns r 0 0 ≤ next ∧ r < rows then
      let thisRow := innerFrom columns next r columns c_start
      thisRow ++ outerFrom rows columns next fuel (r + 1)
        (if thisRow.isEmpty then c_start else 0)
    else []

/-- The pixels visited by the worker with the given `section_size` and
`thread_id`, following `convolve`: `current_section_offset = section_size *
thread_id`, `next_section_offset = current_section_offset + section_size`,
`r_start = current_section_offset / (BYTES_PER_PIXEL * columns)`, and
`c_start = (current_section_offset - BYTES_PER_PIXEL * columns * r_start) /
BYTES_PER_PIXEL + 1` when `r_start != 0`, else 0. -/
def workerPixels (rows columns section_size thread_id : Nat) : List (Nat × Nat) :=
  let current_section_offset := section_size * thread_id
  let next_section_offset := current_section_offset + section_size
  let r_start := current_section_offset / (BYTES_PER_PIXEL * columns)
  let c_start := if r_start ≠ 0 then
      (current_section_offset - BYTES_PER_PIXEL * columns * r_start) / BYTES_PER_PIXEL + 1
    else 0
  outerFrom rows columns next_section_offset rows r_start c_start

/-- One worker's effect on the output buffer: write all four channel bytes of
every pixel its loops visit. -/
def runWorker (input : Nat → Int) (rows columns : Nat) (kernel : Kernel)
    (section_size thread_id : Nat) (out : Nat → Int) : Nat → Int :=
  (workerPixels rows columns section_size thread_id).foldl
    (fun acc p => writePixel input rows columns kernel p.1 p.2 acc) out

/-- `thread_arguments[i].section_size = IMG_BYTE(input.columns, input.rows,
input.columns, BYTES_PER_PIXEL) / number_of_threads` (from `main`). -/
def sectionSize (rows columns number_of_threads : Nat) : Nat :=
  IMG_BYTE columns rows columns BYTES_PER_PIXEL / number_of_threads

/-- A whole convolution pass: `main` hands worker `i` (for `i = 0, ...,
number_of_threads - 1`) the shared input and output buffers, the kernel, its
`thread_id` and the common section size.  Distinct workers write the same
value to any byte they both touch (the written value depends only on the
input, kernel and position), so the concurrent pass is modelled by running
the workers in sequence. -/
def runPass (input : Nat → Int) (rows columns : Nat) (kernel : Kernel)
    (number_of_threads : Nat) (out0 : Nat → Int) : Nat → Int :=
  (List.range number_of_threads).foldl
    (fun out i =>
      runWorker input rows columns kernel (sectionSize rows columns number_of_threads) i out)
    out0

/-- Catalog entry "identity" (`DEFAULT_KERNEL_NAME`). -/
def identityKernel : Kernel := ![![0, 0, 0], ![0, 1, 0], ![0, 0, 0]]

/-- Catalog entry "edge-detect". -/
def edgeDetectKernel : Kernel := ![![-1, -1, -1], ![-1, 8, -1], ![-1, -1, -1]]

/-- Catalog entry "sharpen". -/
def sharpenKernel : Kernel := ![![0, -1, 0], ![-1, 5, -1], ![0, -1, 0]]

/-- Catalog entry "emboss". -/
def embossKernel : Kernel := ![![-2, -1, 0], ![-1, 1, 1], ![0, -2, 2]]

/-- Catalog entry "gaussian-blur". -/
def gaussianBlurKernel : Kernel := ![![1, 2, 1], ![2, 4, 2], ![1, 2, 1]]

/-- Clamping as the specification words it: restrict a value into `[lo, hi]`. -/
def specClamp (x lo hi : Int) : Int := max lo (min x hi)

/-- The normalization factor as the specification words it: the sum of the
nine weights, replaced by 1 if that sum is exactly 0. -/
def specNormalize (kernel : Kernel) : Int :=
  let s : Int := ∑ kr : Fin 3, ∑ kc : Fin 3, kernel kr kc
  if s = 0 then 1 else s

/-- The per-pixel channel formula as the specification words it: for each of
the 9 taps, read the input channel at the edge-clamped coordinates, weight and
sum, divide by the normalization factor with truncation toward zero, and clamp
the quotient into `[0, 255]`. -/
def specChannelValue (input : Nat → Int) (rows columns : Nat) (kernel : Kernel)
    (r c b : Nat) : Int :=
  let acc : Int := ∑ kr : Fin 3, ∑ kc : Fin 3,
    kernel kr kc * input (IMG_BYTE columns
      (specClamp ((r : Int) + ((kr : Int) - 1)) 0 ((rows : Int) - 1)).toNat
      (specClamp ((c : Int) + ((kc : Int) - 1)) 0 ((columns : Int) - 1)).toNat b)
  specClamp (Int.tdiv acc (specNormalize kernel)) 0 255

/-! ### Basic facts about the worker loops -/

/-- Every pixel listed by the inner column loop lies in row `r`, at or right
of the starting column, inside the image width, and its first channel byte is
at or below the section bound. -/
theorem innerFrom_facts (columns next r : Nat) :
    ∀ (fuel c0 : Nat) (p : Nat × Nat), p ∈ innerFrom columns next r fuel c0 →
      p.1 = r ∧ c0 ≤ p.2 ∧ p.2 < columns ∧ IMG_BYTE columns r p.2 0 ≤ next := by
  intro fuel
  induction fuel with
  | zero => intro c0 p hp; simp [innerFrom] at hp
  | succ n ih =>
    intro c0 p hp
    rw [innerFrom] at hp
    split at hp
    · rename_i hcond
      rcases List.mem_cons.mp hp with h | h
      · subst h
        exact ⟨rfl, Nat.le_refl _, hcond.2, hcond.1⟩
      · obtain ⟨h1, h2, h3, h4⟩ := ih (c0 + 1) p h
        exact ⟨h1, by omega, h3, h4⟩
    · simp at hp

/-- Every pixel listed by the outer row loop lies at or below the starting
row, inside the image, with its first channel byte at or below the section
bound; in the starting row itself the column is at or right of `c_start`. -/
theorem outerFrom_facts (rows columns next : Nat) :
    ∀ (fuel r0 cs : Nat) (p : Nat × Nat), p ∈ outerFrom rows columns next fuel r0 cs →
      r0 ≤ p.1 ∧ p.1 < rows ∧ p.2 < columns ∧ IMG_BYTE columns p.1 p.2 0 ≤ next ∧
        (p.1 = r0 → cs ≤ p.2) := by
  intro fuel
  induction fuel with
  | zero => intro r0 cs p hp; simp [outerFrom] at hp
  | succ n ih =>
    intro r0 cs p hp
    rw [outerFrom] at hp
    split at hp
    · rename_i hcond
      rcases List.mem_append.mp hp with h | h
      · obtain ⟨h1, h2, h3, h4⟩ := innerFrom_facts columns next r0 columns cs p h
        refine ⟨Nat.le_of_eq h1.symm, h1 ▸ hcond.2, h3, ?_, fun _ => h2⟩
        rw [h1]; exact h4
      · obtain ⟨h1, h2, h3, h4, _⟩ := ih (r0 + 1) _ p h
        exact ⟨by omega, h2, h3, h4, fun he => by omega⟩
    · simp at hp

/-- The pixels a worker visits are valid pixels of the image, and the first
channel byte of each is at or below the worker's upper section offset. -/
theorem workerPixels_facts (rows columns section_size thread_id : Nat) (p : Nat × Nat)
    (hp : p ∈ workerPixels rows columns section_size thread_id) :
    p.1 < rows ∧ p.2 < columns ∧
      IMG_BYTE columns p.1 p.2 0 ≤ section_size * thread_id + section_size := by
  simp only [workerPixels] at hp
  obtain ⟨_, h2, h3, h4, _⟩ := outerFrom_facts rows columns _ rows _ _ p hp
  exact ⟨h2, h3, h4⟩

/-- Row-major addressing is injective on valid coordinates. -/
theorem IMG_BYTE_inj {columns r c b r' c' b' : Nat} (hc : c < columns) (hc' : c' < columns)
    (hb : b < 4) (hb' : b' < 4) (h : IMG_BYTE columns r c b = IMG_BYTE columns r' c' b') :
    r = r' ∧ c = c' ∧ b = b' := by
  have hcol : 0 < columns := by omega
  simp only [IMG_BYTE, BYTES_PER_PIXEL] at h
  have e1 : columns * 4 * r = 4 * (columns * r) := by ring
  have e2 : columns * 4 * r' = 4 * (columns * r') := by ring
  rw [e1, e2] at h
  have hsplit : b = b' ∧ columns * r + c = columns * r' + c' := by omega
  have hd1 : (columns * r + c) / columns = r := by
    rw [Nat.mul_add_div hcol]; simp [Nat.div_eq_of_lt hc]
  have hd2 : (columns * r' + c') / columns = r' := by
    rw [Nat.mul_add_div hcol]; simp [Nat.div_eq_of_lt hc']
  have hr : r = r' := by rw [← hd1, ← hd2, hsplit.2]
  refine ⟨hr, ?_, hsplit.1⟩
  have := hsplit.2
  rw [hr] at this
  omega

/-! ### Facts about the pixel writes -/

/-- Applying a pixel write at a byte offset: the four channel stores, last
store outermost. -/
theorem writePixel_apply (input : Nat → Int) (rows columns : Nat) (kernel : Kernel)
    (r c : Nat) (out : Nat → Int) (x : Nat) :
    writePixel input rows columns kernel r c out x =
      if x = IMG_BYTE columns r c 3 then
        Int.emod (convolveValue input rows columns kernel r c 3) 256
      else if x = IMG_BYTE columns r c 2 then
        Int.emod (convolveValue input rows columns kernel r c 2) 256
      else if x = IMG_BYTE columns r c 1 then
        Int.emod (convolveValue input rows columns kernel r c 1) 256
      else if x = IMG_BYTE columns r c 0 then
        Int.emod (convolveValue input rows columns kernel r c 0) 256
      else out x := rfl

/-- A pixel write stores the computed channel value at that channel's offset. -/
theorem writePixel_hit (input : Nat → Int) (rows columns : Nat) (kernel : Kernel)
    (r c : Nat) (out : Nat → Int) (b : Nat) (hb : b < 4) :
    writePixel input rows columns kernel r c out (IMG_BYTE columns r c b) =
      Int.emod (convolveValue input rows columns kernel r c b) 256 := by
  rw [writePixel_apply]
  simp only [IMG_BYTE]
  interval_cases b <;> simp

/-- A pixel write leaves all other byte offsets unchanged. -/
theorem writePixel_miss (input : Nat → Int) (rows columns : Nat) (kernel : Kernel)
    (r c : Nat) (out : Nat → Int) (x : Nat)
    (hx : ∀ b, b < 4 → x ≠ IMG_BYTE columns r c b) :
    writePixel input rows columns kernel r c out x = out x := by
  rw [writePixel_apply]
  rw [if_neg (hx 3 (by omega)), if_neg (hx 2 (by omega)),
    if_neg (hx 1 (by omega)), if_neg (hx 0 (by omega))]

/-! ### Once a channel byte holds its convolved value, further writes keep it -/

/-- Folding pixel writes over a list of in-width pixels preserves a channel
byte that already holds its convolved value: any other pixel's write misses
the offset, and a rewrite of the same pixel stores the same value. -/
theorem foldl_write_preserve (input : Nat → Int) (rows columns : Nat) (kernel : Kernel)
    (r c b : Nat) (hc : c < columns) (hb : b < 4) :
    ∀ (L : List (Nat × Nat)) (out : Nat → Int),
      (∀ p ∈ L, p.2 < columns) →
      out (IMG_BYTE columns r c b) =
        Int.emod (convolveValue input rows columns kernel r c b) 256 →
      (L.foldl (fun acc p => writePixel input rows columns kernel p.1 p.2 acc) out)
          (IMG_BYTE columns r c b) =
        Int.emod (convolveValue input rows columns kernel r c b) 256 := by
  intro L
  induction L with
  | nil => intro out _ h; simpa using h
  | cons p L ih =>
    intro out hv h
    simp only [List.foldl_cons]
    apply ih _ (fun q hq => hv q (List.mem_cons_of_mem _ hq))
    by_cases hp : p.1 = r ∧ p.2 = c
    · rw [← hp.1, ← hp.2] at h ⊢
      exact writePixel_hit input rows columns kernel p.1 p.2 out b hb
    · rw [writePixel_miss]
      · exact h
      · intro b' hb' hx
        obtain ⟨h1, h2, _⟩ :=
          IMG_BYTE_inj hc (hv p (List.mem_cons_self _ _)) hb hb' hx
        exact hp ⟨h1.symm, h2.symm⟩

/-- After folding pixel writes over a list of in-width pixels that contains
`(r, c)`, the channel byte `b` of `(r, c)` holds its convolved value. -/
theorem foldl_write_mem (input : Nat → Int) (rows columns : Nat) (kernel : Kernel)
    (r c b : Nat) (hc : c < columns) (hb : b < 4) :
    ∀ (L : List (Nat × Nat)) (out : Nat → Int),
      (∀ p ∈ L, p.2 < columns) → (r, c) ∈ L →
      (L.foldl (fun acc p => writePixel input rows columns kernel p.1 p.2 acc) out)
          (IMG_BYTE columns r c b) =
        Int.emod (convolveValue input rows columns kernel r c b) 256 := by
  intro L
  induction L with
  | nil => intro out _ hmem; simp at hmem
  | cons p L ih =>
    intro out hv hmem
    simp only [List.foldl_cons]
    rcases List.mem_cons.mp hmem with h | h
    · apply foldl_write_preserve input rows columns kernel r c b hc hb L _
        (fun q hq => hv q (List.mem_cons_of_mem _ hq))
      rw [← h]
      exact writePixel_hit input rows columns kernel r c out b hb
    · exact ih _ (fun q hq => hv q (List.mem_cons_of_mem _ hq)) h

/-- A worker run preserves a channel byte that already holds its convolved
value. -/
theorem runWorker_preserve (input : Nat → Int) (rows columns : Nat) (kernel : Kernel)
    (section_size thread_id r c b : Nat) (hc : c < columns) (hb : b < 4)
    (out : Nat → Int)
    (h : out (IMG_BYTE columns r c b) =
      Int.emod (convolveValue input rows columns kernel r c b) 256) :
    runWorker input rows columns kernel section_size thread_id out
        (IMG_BYTE columns r c b) =
      Int.emod (convolveValue input rows columns kernel r c b) 256 := by
  apply foldl_write_preserve input rows columns kernel r c b hc hb _ _ _ h
  intro q hq
  exact (workerPixels_facts rows columns section_size thread_id q hq).2.1

/-- A worker that visits pixel `(r, c)` leaves channel byte `b` of `(r, c)`
holding its convolved value. -/
theorem runWorker_mem (input : Nat → Int) (rows columns : Nat) (kernel : Kernel)
    (section_size thread_id r c b : Nat) (hc : c < columns) (hb : b < 4)
    (out : Nat → Int)
    (hmem : (r, c) ∈ workerPixels rows columns section_size thread_id) :
    runWorker input rows columns kernel section_size thread_id out
        (IMG_BYTE columns r c b) =
      Int.emod (convolveValue input rows columns kernel r c b) 256 := by
  apply foldl_write_mem input rows columns kernel r c b hc hb _ _ _ hmem
  intro q hq
  exact (workerPixels_facts rows columns section_size thread_id q hq).2.1

/-- Folding worker runs preserves a channel byte that already holds its
convolved value. -/
theorem foldl_worker_preserve (input : Nat → Int) (rows columns : Nat) (kernel : Kernel)
    (section_size r c b : Nat) (hc : c < columns) (hb : b < 4) :
    ∀ (ws : List Nat) (out : Nat → Int),
      out (IMG_BYTE columns r c b) =
        Int.emod (convolveValue input rows columns kernel r c b) 256 →
      (ws.foldl (fun acc i => runWorker input rows columns kernel section_size i acc) out)
          (IMG_BYTE columns r c b) =
        Int.emod (convolveValue input rows columns kernel r c b) 256 := by
  intro ws
  induction ws with
  | nil => intro out h; simpa using h
  | cons w ws ih =>
    intro out h
    simp only [List.foldl_cons]
    exact ih _ (runWorker_preserve input rows columns kernel section_size w r c b hc hb out h)

/-- If some worker in the list visits pixel `(r, c)`, then after all workers
run, channel byte `b` of `(r, c)` holds its convolved value. -/
theorem foldl_worker_mem (input : Nat → Int) (rows columns : Nat) (kernel : Kernel)
    (section_size r c b : Nat) (hc : c < columns) (hb : b < 4) :
    ∀ (ws : List Nat) (i : Nat) (out : Nat → Int), i ∈ ws →
      (r, c) ∈ workerPixels rows columns section_size i →
      (ws.foldl (fun acc j => runWorker input rows columns kernel section_size j acc) out)
          (IMG_BYTE columns r c b) =
        Int.emod (convolveValue input rows columns kernel r c b) 256 := by
  intro ws
  induction ws with
  | nil => intro i out hi; simp at hi
  | cons w ws ih =>
    intro i out hi hmem
    simp only [List.foldl_cons]
    rcases List.mem_cons.mp hi with h | h
    · apply foldl_worker_preserve input rows columns kernel section_size r c b hc hb
      rw [h] at hmem
      exact runWorker_mem input rows columns kernel section_size w r c b hc hb out hmem
    · exact ih i _ h hmem

/-! ### Coverage lemmas -/

/-- The inner loop visits every column between its start and the loop
guards. -/
theorem innerFrom_mem_of (columns next r : Nat) :
    ∀ (fuel c0 c : Nat), c0 ≤ c → c < columns → IMG_BYTE columns r c 0 ≤ next →
      columns - c0 ≤ fuel → (r, c) ∈ innerFrom columns next r fuel c0 := by
  intro fuel
  induction fuel with
  | zero => intro c0 c h1 h2 _ h4; omega
  | succ n ih =>
    intro c0 c h1 h2 h3 h4
    have hcond : IMG_BYTE columns r c0 0 ≤ next ∧ c0 < columns := by
      constructor
      · simp only [IMG_BYTE, BYTES_PER_PIXEL] at h3 ⊢; omega
      · omega
    rw [innerFrom, if_pos hcond]
    by_cases he : c0 = c
    · subst he; exact List.mem_cons_self _ _
    · exact List.mem_cons_of_mem _ (ih (c0 + 1) c (by omega) h2 h3 (by omega))

/-- Starting at row `r0` with starting column 0, the outer loop visits every
pixel `(r, c)` with `r0 ≤ r` that satisfies the loop guards. -/
theorem outerFrom_mem_of (rows columns next : Nat) :
    ∀ (fuel r0 r c : Nat), r0 ≤ r → r < rows → c < columns →
      IMG_BYTE columns r c 0 ≤ next → rows - r0 ≤ fuel →
      (r, c) ∈ outerFrom rows columns next fuel r0 0 := by
  intro fuel
  induction fuel with
  | zero => intro r0 r c h1 h2 _ _ h5; omega
  | succ n ih =>
    intro r0 r c h1 h2 h3 h4 h5
    have hcond : IMG_BYTE columns r0 0 0 ≤ next ∧ r0 < rows := by
      constructor
      · simp only [IMG_BYTE, BYTES_PER_PIXEL] at h4 ⊢
        have hm : columns * 4 * r0 ≤ columns * 4 * r := mul_le_mul_left' h1 _
        omega
      · omega
    rw [outerFrom, if_pos hcond]
    by_cases he : r0 = r
    · subst he
      exact List.mem_append_left _
        (innerFrom_mem_of columns next r0 columns 0 c (Nat.zero_le _) h3 h4 (by omega))
    · apply List.mem_append_right
      simp only [ite_self]
      exact ih (r0 + 1) r c (by omega) h2 h3 h4 (by omega)

/-- A worker whose starting row is at or past `rows` visits nothing. -/
theorem outerFrom_nil (rows columns next fuel r0 cs : Nat) (h : rows ≤ r0) :
    outerFrom rows columns next fuel r0 cs = [] := by
  cases fuel with
  | zero => rfl
  | succ n =>
    rw [outerFrom, if_neg]
    rintro ⟨-, h2⟩
    omega

/-- Every byte offset inside the image decomposes as the address of a valid
channel coordinate. -/
theorem exists_pixel_of_lt (rows columns o : Nat) (ho : o < rows * columns * 4) :
    ∃ r c b, r < rows ∧ c < columns ∧ b < 4 ∧ o = IMG_BYTE columns r c b := by
  have hcol : 0 < columns := by
    rcases Nat.eq_zero_or_pos columns with h | h
    · rw [h] at ho; omega
    · exact h
  refine ⟨o / 4 / columns, o / 4 % columns, o % 4, ?_, Nat.mod_lt _ hcol, by omega, ?_⟩
  · have h1 : o / 4 < rows * columns := by
      rw [Nat.div_lt_iff_lt_mul (by omega)]
      exact ho
    rw [Nat.div_lt_iff_lt_mul hcol]
    omega
  · simp only [IMG_BYTE, BYTES_PER_PIXEL]
    have e1 : columns * 4 * (o / 4 / columns) = 4 * (columns * (o / 4 / columns)) := by ring
    rw [e1]
    have e2 := Nat.div_add_mod (o / 4) columns
    omega

/-- When the worker's starting byte offset is at least one full row of bytes,
every pixel it visits has its first channel byte strictly past that offset. -/
theorem workerPixels_lower (rows columns section_size thread_id : Nat)
    (hcols : 1 ≤ columns)
    (hoff : BYTES_PER_PIXEL * columns ≤ section_size * thread_id) :
    ∀ p ∈ workerPixels rows columns section_size thread_id,
      section_size * thread_id < IMG_BYTE columns p.1 p.2 0 := by
  intro p hp
  simp only [workerPixels] at hp
  simp only [BYTES_PER_PIXEL] at hp hoff
  have hne : section_size * thread_id / (4 * columns) ≠ 0 := by
    have h1 : 1 ≤ section_size * thread_id / (4 * columns) :=
      (Nat.le_div_iff_mul_le (by omega)).mpr (by omega)
    omega
  rw [if_pos hne] at hp
  obtain ⟨h1, _, _, _, h5⟩ := outerFrom_facts rows columns _ rows _ _ p hp
  simp only [IMG_BYTE, BYTES_PER_PIXEL]
  have hdm := Nat.div_add_mod (section_size * thread_id) (4 * columns)
  have hmlt : section_size * thread_id % (4 * columns) < 4 * columns :=
    Nat.mod_lt _ (by omega)
  rcases Nat.eq_or_lt_of_le h1 with he | hlt
  · have hcs := h5 he.symm
    have e : columns * 4 * p.1 = 4 * columns * (section_size * thread_id / (4 * columns)) := by
      rw [← he]; ring
    omega
  · have hb1 : 4 * columns * (section_size * thread_id / (4 * columns) + 1) ≤
        4 * columns * p.1 := mul_le_mul_left' (by omega) _
    have hb2 : 4 * columns * (section_size * thread_id / (4 * columns) + 1) =
        4 * columns * (section_size * thread_id / (4 * columns)) + 4 * columns := by ring
    have hb3 : 4 * columns * p.1 = columns * 4 * p.1 := by ring
    omega

/-! ### The per-channel computation in closed form -/

/-- For a non-alpha channel, the accumulation loop of `convolve` computes the
sum of the nine weighted taps. -/
theorem convolveValue_rgb (input : Nat → Int) (rows columns : Nat) (kernel : Kernel)
    (r c b : Nat) (hb : b ≠ 3) :
    convolveValue input rows columns kernel r c b =
      CLAMP (Int.tdiv (∑ kr : Fin 3, ∑ kc : Fin 3,
          kernel kr kc * input (readOffset rows columns r c kr kc b))
        (normalize_kernel kernel)) 0 255 := by
  have hsum : ((List.finRange KERNEL_DIM).foldl (fun acc kr =>
      (List.finRange KERNEL_DIM).foldl (fun acc2 kc =>
        acc2 + kernel kr kc * input (readOffset rows columns r c kr kc b)) acc) 0) =
      ∑ kr : Fin 3, ∑ kc : Fin 3, kernel kr kc * input (readOffset rows columns r c kr kc b) := by
    rw [show (List.finRange KERNEL_DIM) = [0, 1, 2] from rfl]
    simp only [List.foldl_cons, List.foldl_nil, Fin.sum_univ_three]
    ring
  simp only [convolveValue, if_neg hb, hsum]

/-- The accumulation loop of `normalize_kernel` computes the sum of the nine
weights, so `normalize_kernel` agrees with the specification's normalization
factor. -/
theorem normalize_kernel_eq_spec (kernel : Kernel) :
    normalize_kernel kernel = specNormalize kernel := by
  have hsum : ((List.finRange KERNEL_DIM).foldl (fun acc r =>
      (List.finRange KERNEL_DIM).foldl (fun acc2 c => acc2 + kernel r c) acc) 0) =
      ∑ kr : Fin 3, ∑ kc : Fin 3, kernel kr kc := by
    rw [show (List.finRange KERNEL_DIM) = [0, 1, 2] from rfl]
    simp only [List.foldl_cons, List.foldl_nil, Fin.sum_univ_three]
    ring
  simp only [normalize_kernel, specNormalize, hsum]

/-- The C conditional clamp agrees with the specification's clamp whenever
the interval is nonempty. -/
theorem CLAMP_eq_specClamp (x lo hi : Int) (h : lo ≤ hi) :
    CLAMP x lo hi = specClamp x lo hi := by
  simp only [CLAMP, specClamp]
  omega

/-- The alpha branch of the channel computation reads the input byte back. -/
theorem convolveValue_alpha (input : Nat → Int) (rows columns : Nat) (kernel : Kernel)
    (r c : Nat) :
    convolveValue input rows columns kernel r c 3 = input (IMG_BYTE columns r c 3) := by
  simp [convolveValue]

/-- On an in-range pixel the tap offset of the centre tap is the pixel's own
address. -/
theorem readOffset_center (rows columns r c b : Nat) (hr : r < rows) (hc : c < columns) :
    readOffset rows columns r c 1 1 b = IMG_BYTE columns r c b := by
  simp only [readOffset]
  have h1 : CLAMP ((r : Int) + (((1 : Fin 3) : Int) - (KERNEL_DIM : Int) / 2)) 0
      ((rows : Int) - 1) = (r : Int) := by
    simp only [CLAMP]
    have : (((1 : Fin 3) : Int) - (KERNEL_DIM : Int) / 2) = 0 := by decide
    rw [this]
    omega
  have h2 : CLAMP ((c : Int) + (((1 : Fin 3) : Int) - (KERNEL_DIM : Int) / 2)) 0
      ((columns : Int) - 1) = (c : Int) := by
    simp only [CLAMP]
    have : (((1 : Fin 3) : Int) - (KERNEL_DIM : Int) / 2) = 0 := by decide
    rw [this]
    omega
  rw [h1, h2]
  simp

/-- Convolving with the identity kernel computes the pixel's own channel
value (clamped into the byte range, which leaves an in-range byte alone). -/
theorem convolveValue_identity (input : Nat → Int) (rows columns r c b : Nat)
    (hr : r < rows) (hc : c < columns) (h0 : 0 ≤ input (IMG_BYTE columns r c b))
    (h255 : input (IMG_BYTE columns r c b) ≤ 255) :
    convolveValue input rows columns identityKernel r c b = input (IMG_BYTE columns r c b) := by
  by_cases hb : b = 3
  · subst hb
    exact convolveValue_alpha input rows columns identityKernel r c
  · rw [convolveValue_rgb input rows columns identityKernel r c b hb]
    have hsum : (∑ kr : Fin 3, ∑ kc : Fin 3,
        identityKernel kr kc * input (readOffset rows columns r c kr kc b)) =
        input (IMG_BYTE columns r c b) := by
      rw [Fin.sum_univ_three]
      rw [Fin.sum_univ_three, Fin.sum_univ_three, Fin.sum_univ_three]
      rw [readOffset_center rows columns r c b hr hc]
      simp [identityKernel, Matrix.vecHead, Matrix.vecTail]
    rw [hsum]
    have hnorm : normalize_kernel identityKernel = 1 := by decide
    rw [hnorm, Int.tdiv_one]
    simp only [CLAMP]
    omega

/-! ### The claims -/

/-- Claim C1, as stated, is false: for a 1×1 image and one worker the claim
predicts a section size of `floor(1*1*4 / 1) = 4`, but `main` divides
`IMG_BYTE(columns, rows, columns, 4) = 12` by the worker count, handing the
worker a section size of 12. -/
theorem sectionSize_claim_counterexample : ¬ (sectionSize 1 1 1 = 1 * 1 * 4 / 1) := by decide

/-- Claim C1 (amended): the extent divided among the workers is
`IMG_BYTE(columns, rows, columns, 4) = rows*columns*4 + columns*4 + 4`, not
`rows*columns*4`; the section size is its floored quotient by the worker
count, and worker `i` only processes pixels whose first channel byte address
is at most `(i+1)*S` (the upper bound test is inclusive) and, whenever its
start offset `i*S` is at least one row of bytes, strictly above `i*S`. -/
theorem worker_byte_range (rows columns number_of_threads i : Nat)
    (_hN : 1 ≤ number_of_threads) :
    sectionSize rows columns number_of_threads =
      (rows * columns * 4 + columns * 4 + 4) / number_of_threads ∧
    ∀ p ∈ workerPixels rows columns (sectionSize rows columns number_of_threads) i,
      IMG_BYTE columns p.1 p.2 0 ≤
        sectionSize rows columns number_of_threads * i +
          sectionSize rows columns number_of_threads ∧
      (1 ≤ columns →
        BYTES_PER_PIXEL * columns ≤ sectionSize rows columns number_of_threads * i →
        sectionSize rows columns number_of_threads * i < IMG_BYTE columns p.1 p.2 0) := by
  constructor
  · simp only [sectionSize, IMG_BYTE, BYTES_PER_PIXEL]
    congr 1
    ring
  · intro p hp
    refine ⟨(workerPixels_facts _ _ _ _ p hp).2.2, fun hc hoff => ?_⟩
    exact workerPixels_lower rows columns _ i hc hoff p hp

/-- Witness for the amended claim C1 at rows = columns = 4, four workers,
worker 1 (section size 21), pixel (1, 2). -/
theorem worker_byte_range_witness :
    IMG_BYTE 4 1 2 0 ≤ sectionSize 4 4 4 * 1 + sectionSize 4 4 4 ∧
      sectionSize 4 4 4 * 1 < IMG_BYTE 4 1 2 0 :=
  ⟨((worker_byte_range 4 4 4 1 (by decide)).2 (1, 2) (by decide)).1,
   ((worker_byte_range 4 4 4 1 (by decide)).2 (1, 2) (by decide)).2 (by decide) (by decide)⟩

/-- Claim C2 fails on the code: for rows = 3, columns = 2 and N = 3 workers
(N divides the 24 image bytes evenly, section size 12), pixel (2, 0) is a
valid pixel visited by none of the three workers — worker 1's start offset
lands inside the last pixel of row 1, its computed start column equals
`columns`, so its inner loop never runs, the `c_start` reset never executes,
and the worker processes nothing. -/
theorem partition_gap_at_3x2_3 :
    sectionSize 3 2 3 = 12 ∧ 3 ∣ 3 * 2 * 4 ∧
      (2, 0) ∉ workerPixels 3 2 (sectionSize 3 2 3) 0 ∧
      (2, 0) ∉ workerPixels 3 2 (sectionSize 3 2 3) 1 ∧
      (2, 0) ∉ workerPixels 3 2 (sectionSize 3 2 3) 2 ∧
      2 < 3 ∧ 0 < 2 := by decide

/-- Claim C3 fails on the code: for an 8×4 image (both dimensions divisible
by 4) with every input byte 9, the single-worker pass writes pixel (7, 0)
(value 9 under the identity kernel) while the four-worker pass leaves all of
row 7 unwritten (worker 3's start column saturates at `columns`), so the two
output buffers differ at byte `IMG_BYTE(4, 7, 0, 0) = 112`. -/
theorem worker_count_divergence_at_8x4 :
    runPass (fun _ => 9) 8 4 identityKernel 1 (fun _ => 0) (IMG_BYTE 4 7 0 0) = 9 ∧
      runPass (fun _ => 9) 8 4 identityKernel 4 (fun _ => 0) (IMG_BYTE 4 7 0 0) = 0 :=
  ⟨by decide, by decide⟩

/-- Claim C4: a single-worker pass with the identity kernel reproduces the
input buffer byte for byte on every channel, alpha included. -/
theorem identity_kernel_pass (input : Nat → Int) (rows columns : Nat) (out0 : Nat → Int)
    (hin : ∀ a, 0 ≤ input a ∧ input a ≤ 255) (o : Nat) (ho : o < rows * columns * 4) :
    runPass input rows columns identityKernel 1 out0 o = input o := by
  obtain ⟨r, c, b, hr, hc, hb, rfl⟩ := exists_pixel_of_lt rows columns o ho
  have hcov : (r, c) ∈ workerPixels rows columns (sectionSize rows columns 1) 0 := by
    simp [workerPixels]
    apply outerFrom_mem_of rows columns _ rows 0 r c (Nat.zero_le _) hr hc ?_ (by omega)
    simp only [sectionSize, IMG_BYTE, BYTES_PER_PIXEL, Nat.div_one]
    have e : columns * 4 * (r + 1) ≤ columns * 4 * rows := mul_le_mul_left' (by omega) _
    have e2 : columns * 4 * (r + 1) = columns * 4 * r + columns * 4 := by ring
    omega
  have hpass := foldl_worker_mem input rows columns identityKernel
      (sectionSize rows columns 1) r c b hc hb (List.range 1) 0 out0 (by decide) hcov
  simp only [runPass]
  rw [hpass, convolveValue_identity input rows columns r c b hr hc (hin _).1 (hin _).2]
  exact Int.emod_eq_of_lt (hin _).1 (by have := (hin (IMG_BYTE columns r c b)).2; omega)

/-- Witness for claim C4: a 1×1 image with all bytes 5 is reproduced at
byte offset 2. -/
theorem identity_kernel_pass_witness :
    runPass (fun _ => 5) 1 1 identityKernel 1 (fun _ => 0) 2 = 5 :=
  identity_kernel_pass (fun _ => 5) 1 1 (fun _ => 0) (fun _ => by norm_num) 2
    (by decide)

/-- Claim C5: on a non-alpha channel the computed output value is exactly the
specification formula — nine edge-clamped taps, weighted and summed, divided
by the normalization factor with truncation toward zero, clamped into
[0, 255]. -/
theorem convolve_channel_spec (input : Nat → Int) (rows columns : Nat) (kernel : Kernel)
    (r c b : Nat) (hrows : 1 ≤ rows) (hcols : 1 ≤ columns) (hb : b < 3) :
    convolveValue input rows columns kernel r c b =
      specChannelValue input rows columns kernel r c b := by
  rw [convolveValue_rgb input rows columns kernel r c b (by omega)]
  simp only [specChannelValue]
  have hs : (∑ kr : Fin 3, ∑ kc : Fin 3,
      kernel kr kc * input (readOffset rows columns r c kr kc b)) =
      ∑ kr : Fin 3, ∑ kc : Fin 3, kernel kr kc * input (IMG_BYTE columns
        (specClamp ((r : Int) + ((kr : Int) - 1)) 0 ((rows : Int) - 1)).toNat
        (specClamp ((c : Int) + ((kc : Int) - 1)) 0 ((columns : Int) - 1)).toNat b) := by
    apply Finset.sum_congr rfl
    intro kr _
    apply Finset.sum_congr rfl
    intro kc _
    simp only [readOffset]
    rw [show ((KERNEL_DIM : Int) / 2) = 1 by decide]
    rw [CLAMP_eq_specClamp _ 0 ((rows : Int) - 1) (by omega),
      CLAMP_eq_specClamp _ 0 ((columns : Int) - 1) (by omega)]
  rw [hs, normalize_kernel_eq_spec, CLAMP_eq_specClamp _ _ _ (by norm_num)]

/-- Witness for claim C5 at a 1×1 all-3 image, identity kernel, red
channel. -/
theorem convolve_channel_spec_witness :
    convolveValue (fun _ => 3) 1 1 identityKernel 0 0 0 =
      specChannelValue (fun _ => 3) 1 1 identityKernel 0 0 0 :=
  convolve_channel_spec (fun _ => 3) 1 1 identityKernel 0 0 0 (by decide) (by decide)
    (by decide)

/-- Claim C6: for every kernel and every pixel some worker visits, the alpha
byte of the output equals the alpha byte of the input, copied verbatim. -/
theorem alpha_passthrough (input : Nat → Int) (rows columns number_of_threads i r c : Nat)
    (kernel : Kernel) (out0 : Nat → Int) (hi : i < number_of_threads)
    (hmem : (r, c) ∈ workerPixels rows columns (sectionSize rows columns number_of_threads) i)
    (h0 : 0 ≤ input (IMG_BYTE columns r c 3))
    (h255 : input (IMG_BYTE columns r c 3) ≤ 255) :
    runPass input rows columns kernel number_of_threads out0 (IMG_BYTE columns r c 3) =
      input (IMG_BYTE columns r c 3) := by
  have hc : c < columns := (workerPixels_facts rows columns _ i (r, c) hmem).2.1
  have hpass := foldl_worker_mem input rows columns kernel
      (sectionSize rows columns number_of_threads) r c 3 hc (by omega)
      (List.range number_of_threads) i out0 (List.mem_range.mpr hi) hmem
  simp only [runPass]
  rw [hpass, convolveValue_alpha]
  exact Int.emod_eq_of_lt h0 (by omega)

/-- Witness for claim C6: 1×1 image, sharpen kernel, one worker. -/
theorem alpha_passthrough_witness :
    runPass (fun _ => 7) 1 1 sharpenKernel 1 (fun _ => 0) (IMG_BYTE 1 0 0 3) = 7 :=
  alpha_passthrough (fun _ => 7) 1 1 1 0 0 0 sharpenKernel (fun _ => 0) (by decide)
    (by decide) (by decide) (by decide)

/-- Claim C7: `normalize_kernel` returns the sum of the nine weights, or 1
when that sum is zero; it never returns 0, and on the five catalog kernels it
returns 1, 1, 1, -2 and 16 respectively. -/
theorem normalize_kernel_correct (kernel : Kernel) :
    normalize_kernel kernel =
      (if (∑ kr : Fin 3, ∑ kc : Fin 3, kernel kr kc) = 0 then 1
       else ∑ kr : Fin 3, ∑ kc : Fin 3, kernel kr kc) ∧
    normalize_kernel kernel ≠ 0 ∧
    normalize_kernel identityKernel = 1 ∧ normalize_kernel edgeDetectKernel = 1 ∧
    normalize_kernel sharpenKernel = 1 ∧ normalize_kernel embossKernel = -2 ∧
    normalize_kernel gaussianBlurKernel = 16 := by
  refine ⟨?_, ?_, by decide, by decide, by decide, by decide, by decide⟩
  · rw [normalize_kernel_eq_spec]
    simp only [specNormalize]
  · rw [normalize_kernel_eq_spec]
    simp only [specNormalize]
    split
    · norm_num
    · assumption

/-- Claim C8 fails on the code: with columns = 2, rows = 3, section size 12
and thread id 1 (byte offset 12), the start translation gives row 1, column
2; since the first row's scan is empty the start column is never reset, so
the worker visits nothing, although under the claim (subsequent rows start at
column 0) it would visit pixels (2, 0) and (2, 1), whose first channel bytes
16 and 20 lie below the worker's inclusive bound 24. -/
theorem cstart_not_reset_at_3x2 :
    sectionSize 3 2 3 = 12 ∧ workerPixels 3 2 12 1 = [] ∧
      IMG_BYTE 2 2 0 0 ≤ 12 * 1 + 12 ∧ IMG_BYTE 2 2 1 0 ≤ 12 * 1 + 12 ∧ 2 < 3 := by decide

/-- Claim C9: on a 1×1 image every tap of every kernel reads the single
pixel (all nine clamped tap offsets equal the pixel's own channel offset,
inside the 4-byte buffer), and each non-alpha output channel is the sum of
the nine weights times the pixel's channel value, divided by the
normalization factor with truncation, clamped into [0, 255]. -/
theorem one_by_one_convolve (input : Nat → Int) (kernel : Kernel) (b : Nat) (hb : b < 3) :
    (∀ kr kc : Fin 3, readOffset 1 1 0 0 kr kc b = IMG_BYTE 1 0 0 b ∧
        IMG_BYTE 1 0 0 b < 1 * 1 * 4) ∧
      convolveValue input 1 1 kernel 0 0 b =
        CLAMP (Int.tdiv ((∑ kr : Fin 3, ∑ kc : Fin 3, kernel kr kc) *
            input (IMG_BYTE 1 0 0 b)) (normalize_kernel kernel)) 0 255 := by
  have hro : ∀ kr kc : Fin 3, readOffset 1 1 0 0 kr kc b = IMG_BYTE 1 0 0 b := by
    intro kr kc
    fin_cases kr <;> fin_cases kc <;>
      norm_num [readOffset, CLAMP, IMG_BYTE]
  refine ⟨fun kr kc => ⟨hro kr kc, by simp [IMG_BYTE]; omega⟩, ?_⟩
  rw [convolveValue_rgb input 1 1 kernel 0 0 b (by omega)]
  have hs : (∑ kr : Fin 3, ∑ kc : Fin 3,
      kernel kr kc * input (readOffset 1 1 0 0 kr kc b)) =
      (∑ kr : Fin 3, ∑ kc : Fin 3, kernel kr kc) * input (IMG_BYTE 1 0 0 b) := by
    rw [Finset.sum_mul]
    apply Finset.sum_congr rfl
    intro kr _
    rw [Finset.sum_mul]
    apply Finset.sum_congr rfl
    intro kc _
    rw [hro kr kc]
  rw [hs]

/-- Witness for claim C9: 1×1 all-5 image, edge-detect kernel, red channel. -/
theorem one_by_one_convolve_witness :
    convolveValue (fun _ => 5) 1 1 edgeDetectKernel 0 0 0 =
      CLAMP (Int.tdiv ((∑ kr : Fin 3, ∑ kc : Fin 3, edgeDetectKernel kr kc) *
          (5 : Int)) (normalize_kernel edgeDetectKernel)) 0 255 :=
  (one_by_one_convolve (fun _ => 5) edgeDetectKernel 0 (by decide)).2

/-- Claim C10: every byte a worker writes lies strictly inside the
`rows*columns*4`-byte output buffer (the loop guards confine writes to valid
pixels even though the assigned byte range may extend past the buffer), and a
worker whose start offset is at or past the end of the pixel data writes
nothing at all. -/
theorem worker_writes_in_bounds (rows columns number_of_threads i : Nat)
    (_hrows : 1 ≤ rows) (hcols : 1 ≤ columns) (_hN : 1 ≤ number_of_threads)
    (_hi : i < number_of_threads) :
    (∀ p ∈ workerPixels rows columns (sectionSize rows columns number_of_threads) i,
        ∀ b, b < 4 → IMG_BYTE columns p.1 p.2 b < rows * columns * 4) ∧
      (rows * columns * 4 ≤ sectionSize rows columns number_of_threads * i →
        workerPixels rows columns (sectionSize rows columns number_of_threads) i = []) := by
  constructor
  · intro p hp b hb
    obtain ⟨h1, h2, _⟩ := workerPixels_facts _ _ _ _ p hp
    simp only [IMG_BYTE, BYTES_PER_PIXEL]
    have e : columns * 4 * (p.1 + 1) ≤ columns * 4 * rows := mul_le_mul_left' (by omega) _
    have e2 : columns * 4 * (p.1 + 1) = columns * 4 * p.1 + columns * 4 := by ring
    have e3 : rows * columns * 4 = columns * 4 * rows := by ring
    omega
  · intro hbig
    simp only [workerPixels, BYTES_PER_PIXEL]
    apply outerFrom_nil
    rw [Nat.le_div_iff_mul_le (by omega)]
    have e : rows * (4 * columns) = rows * columns * 4 := by ring
    omega

/-- Witness for claim C10: with a 2×2 image and three workers (section size
9), worker 2 starts at byte 18, past the 16 image bytes, and visits
nothing. -/
theorem worker_writes_in_bounds_witness :
    workerPixels 2 2 (sectionSize 2 2 3) 2 = [] :=
  (worker_writes_in_bounds 2 2 3 2 (by decide) (by decide) (by decide) (by decide)).2
    (by decide)
